import Mathlib

/-!
Shallow embedding of the EFC3 flashcard backend (src/card.rs, src/question.rs):
the card data model, answer matching, the question-generation engine and its
multiple-choice answer algorithm, and the `Questions` iterator.

Rust strings are modelled as lists of characters; references to cards inside a
`Set` are modelled as indices into the owning `Set`'s card sequences (so that
`ptr::eq` on two references into the same slice becomes index equality).
Randomness (`rand::Rng`) is modelled as a stream of naturals together with a
position; each uniform draw `gen_range(0..n)` takes the next stream value
modulo `n`.
-/

namespace EFC3

/-- Rust `str` / `String`, modelled as a list of characters. -/
abbrev Str := List Char

/-- Turn a Lean string literal into a `Str` (used only for concrete examples). -/
def str (s : String) : Str := s.data

/-- Character class used by `str::trim`.  Rust trims Unicode `White_Space`
characters; the model covers the ASCII whitespace characters, which is enough
for every string this development touches. -/
def isWhite (c : Char) : Bool := c.isWhitespace

/-- Model of Rust `str::trim`: remove leading and trailing whitespace. -/
def trim (l : Str) : Str := List.rdropWhile isWhite (List.dropWhile isWhite l)

/-- Case-folding table modelling the external `unicase` crate's Unicode case
fold: the ASCII letters plus representative non-ASCII foldings (the crate
folds the whole of Unicode; the model restricts the table to the characters
this development needs, keeping the crate's character-by-character shape). -/
def foldTable : List (Char × Char) :=
  [('A', 'a'), ('B', 'b'), ('C', 'c'), ('D', 'd'), ('E', 'e'), ('F', 'f'),
   ('G', 'g'), ('H', 'h'), ('I', 'i'), ('J', 'j'), ('K', 'k'), ('L', 'l'),
   ('M', 'm'), ('N', 'n'), ('O', 'o'), ('P', 'p'), ('Q', 'q'), ('R', 'r'),
   ('S', 's'), ('T', 't'), ('U', 'u'), ('V', 'v'), ('W', 'w'), ('X', 'x'),
   ('Y', 'y'), ('Z', 'z'), ('É', 'é'), ('Σ', 'σ'), ('ς', 'σ')]

/-- Fold one character to its case-folded form (identity off the table). -/
def foldChar (c : Char) : Char :=
  match foldTable.find? (fun p => p.1 == c) with
  | some p => p.2
  | none => c

/-- Model of `unicase::eq` (external crate): the two strings are equal after
character-wise Unicode case folding. -/
def unicaseEq (a b : Str) : Bool := a.map foldChar == b.map foldChar

/-- `RecallType` from src/card.rs: how the player proves recall of a card
facet.  `none` means the facet never generates a question. -/
inductive RecallType where
  | none
  | mc
  | text
deriving DecidableEq

/-- `RecallSettings` from src/card.rs. -/
structure RecallSettings where
  typ : RecallType
  check_caps : Bool
deriving DecidableEq

/-- `RecallSettings::test_match` from src/card.rs: trim both operands, then
compare exactly when `check_caps` and case-insensitively otherwise. -/
def RecallSettings.test_match (rules : RecallSettings) (a b : Str) : Bool :=
  let a := trim a
  let b := trim b
  if rules.check_caps then a == b else unicaseEq a b

/-- `Default for RecallSettings` from src/card.rs. -/
def RecallSettings.default : RecallSettings := ⟨RecallType.mc, false⟩

/-- A side of a flashcard (`Side` from src/card.rs). -/
inductive Side where
  | Front
  | Back
deriving DecidableEq

/-- `Not for Side` from src/card.rs: the opposite side. -/
def Side.not : Side → Side
  | .Front => .Back
  | .Back => .Front

/-- Randomness source: a stream of naturals plus current position, modelling
an externally supplied `rand::Rng`. -/
structure Rng where
  stream : Nat → Nat
  pos : Nat

/-- Draw the next raw stream value. -/
def Rng.next (r : Rng) : Nat × Rng := (r.stream r.pos, { r with pos := r.pos + 1 })

/-- Model of a uniform draw `rng.gen_range(0..n)`: next value modulo `n`.
The rand crate panics on an empty range; every call site has `n > 0`. -/
def genRange (n : Nat) (r : Rng) : Nat × Rng :=
  let (v, r') := r.next
  (v % n, r')

/-- `CardSide` from src/card.rs: an ordered group of interchangeable text
variants for one facet of a card. -/
structure CardSide where
  text : List Str
deriving DecidableEq

/-- `CardSide::empty`. -/
def CardSide.empty : CardSide := ⟨[]⟩

/-- `CardSide::any_text`: a random variant, or `none` when there are no
variants (models `SliceRandom::choose`, which draws only from a non-empty
slice). -/
def CardSide.any_text (cs : CardSide) (r : Rng) : Option Str × Rng :=
  if cs.text.isEmpty then (none, r)
  else
    let (i, r') := genRange cs.text.length r
    (some (cs.text.getD i []), r')

/-- `CardSide::matches_text`: the candidate matches some stored variant under
the rules. -/
def CardSide.matches_text (cs : CardSide) (rules : RecallSettings) (t : Str) : Bool :=
  cs.text.any fun template => rules.test_match template t

/-- `Decoys` from src/card.rs: the stored wrong-answer texts of an `McCard`. -/
structure Decoys where
  text : List Str
deriving DecidableEq

/-- `Decoys::empty`. -/
def Decoys.empty : Decoys := ⟨[]⟩

/-- `Decoys::text_count`. -/
def Decoys.text_count (d : Decoys) : Nat := d.text.length

/-- Sampling without replacement from a list of strings, driving every pick
from the rng stream.  Models the index sampling done eagerly inside the rand
crate's `SliceRandom::choose_multiple`: `min count l.length` distinct entries
(distinct positions, not necessarily distinct strings). -/
def sampleStrs : Nat → List Str → Rng → List Str × Rng
  | 0, _, r => ([], r)
  | _ + 1, [], r => ([], r)
  | n + 1, x :: xs, r =>
    let l := x :: xs
    let v := (r.next).1
    let r' := (r.next).2
    let i := v % l.length
    let rest := l.take i ++ l.drop (i + 1)
    (l.getD i [] :: (sampleStrs n rest r').1, (sampleStrs n rest r').2)

/-- `Decoys::choose_text`: pick `count` random decoy texts without repeating
bag entries. -/
def Decoys.choose_text (d : Decoys) (r : Rng) (count : Nat) : List Str × Rng :=
  sampleStrs count d.text r

/-- `Flashcard` from src/card.rs. -/
structure Flashcard where
  front : CardSide
  back : CardSide
deriving DecidableEq

/-- `Flashcard::blank`. -/
def Flashcard.blank : Flashcard := ⟨CardSide.empty, CardSide.empty⟩

/-- `Index<Side> for Flashcard`. -/
def Flashcard.index (c : Flashcard) (s : Side) : CardSide :=
  match s with
  | .Front => c.front
  | .Back => c.back

/-- `McCard` from src/card.rs. -/
structure McCard where
  question : CardSide
  answer : CardSide
  decoys : Decoys
deriving DecidableEq

/-- `McCard::blank`. -/
def McCard.blank : McCard := ⟨CardSide.empty, CardSide.empty, Decoys.empty⟩

/-- `Set` from src/card.rs: the aggregate of flashcards, multiple-choice
cards, and per-category recall settings. -/
structure Set where
  recall_back : RecallSettings
  recall_front : RecallSettings
  recall_mc : RecallSettings
  flashcards : List Flashcard
  mc_cards : List McCard
deriving DecidableEq

/-- `Set::flashcard_recall_settings`. -/
def Set.flashcard_recall_settings (s : Set) (side : Side) : RecallSettings :=
  match side with
  | .Front => s.recall_front
  | .Back => s.recall_back

/-- `QuestionTy` from src/question.rs.  The Rust variants hold references into
the owning `Set`; the model holds the card's index instead, so `ptr::eq` on
two references into the same slice becomes equality of indices. -/
inductive QuestionTy where
  | flashcard (card : Nat) (side : Side)
  | mcCard (card : Nat)
deriving DecidableEq

/-- `Question` from src/question.rs. -/
structure Question where
  set : Set
  ty : QuestionTy
deriving DecidableEq

/-- Every `Question` the engine creates references a card inside its `Set`;
this is the structural invariant §7 of the spec calls a programming error to
break. -/
def Question.wf (q : Question) : Prop :=
  match q.ty with
  | .flashcard ci _ => ci < q.set.flashcards.length
  | .mcCard ci => ci < q.set.mc_cards.length

instance (q : Question) : Decidable q.wf := by
  unfold Question.wf
  cases q.ty <;> exact inferInstance

/-- `FIND_DECOY_ATTEMPTS` from src/question.rs: retry budget of the flashcard
decoy search. -/
def FIND_DECOY_ATTEMPTS : Nat := 24

/-- Wrapping 64-bit subtraction of one, as release-mode Rust evaluates the
`usize` expression `count - 1`. -/
def usizeSub1 (n : Nat) : Nat := (n + (2 ^ 64 - 1)) % 2 ^ 64

/-- `McList` from src/question.rs: the generated multiple-choice answers and
the index of the correct one. -/
structure McList where
  list : List Str
  correct_index : Nat
deriving DecidableEq

/-- `McList::correct` (`self[self.correct_index()]`; the source indexing
panics out of bounds, and the generator always produces an in-bounds index). -/
def McList.correct (m : McList) : Str := m.list.getD m.correct_index []

/-- `Vec::insert(i, x)`: insert so that `x` ends up at position `i` (the
source panics when `i` exceeds the length; the call site has `i < len`). -/
def insertAt (l : List Str) (i : Nat) (x : Str) : List Str :=
  l.take i ++ x :: l.drop i

/-- The decoy-collection loop of the flashcard branch of
`Question::mc_answers` (src/question.rs lines 91-114), one fuel unit per
`FIND_DECOY_ATTEMPTS` iteration.  `brk` is the release-mode value of
`count - 1`.  The source `expect`s that the flashcard list is non-empty,
which holds for every well-formed question; the empty case here returns the
accumulator and is dead code under `Question.wf`. -/
def findDecoys (s : Set) (ci : Nat) (side : Side) (answer_side : CardSide)
    (rules : RecallSettings) (brk : Nat) :
    Nat → List Str → Rng → List Str × Rng
  | 0, acc, r => (acc, r)
  | fuel + 1, acc, r =>
    if s.flashcards.isEmpty then (acc, r)
    else
      let (v, r1) := r.next
      let j := v % s.flashcards.length
      if j = ci then findDecoys s ci side answer_side rules brk fuel acc r1
      else
        let random_card := s.flashcards.getD j Flashcard.blank
        match (random_card.index side).any_text r1 with
        | (none, r2) => findDecoys s ci side answer_side rules brk fuel acc r2
        | (some text, r2) =>
          if answer_side.matches_text rules text || acc.contains text then
            findDecoys s ci side answer_side rules brk fuel acc r2
          else
            let acc' := acc ++ [text]
            if acc'.length = brk then (acc', r2)
            else findDecoys s ci side answer_side rules brk fuel acc' r2

/-- `Question::mc_answers` from src/question.rs. -/
def Question.mc_answers (q : Question) (count : Nat) (r : Rng) : Option McList :=
  match q.ty with
  | .flashcard ci side =>
    let card := q.set.flashcards.getD ci Flashcard.blank
    let answer_side := card.index side
    match answer_side.any_text r with
    | (none, _) => none
    | (some correct_text, r1) =>
      let count1 := min count q.set.flashcards.length
      let fd :=
        findDecoys q.set ci side answer_side (q.set.flashcard_recall_settings side)
          (usizeSub1 count1) FIND_DECOY_ATTEMPTS [] r1
      if fd.1.isEmpty then none
      else
        let correct_index := (genRange fd.1.length fd.2).1
        some ⟨insertAt fd.1 correct_index correct_text, correct_index⟩
  | .mcCard ci =>
    let card := q.set.mc_cards.getD ci McCard.blank
    match card.answer.any_text r with
    | (none, _) => none
    | (some correct_answer, r1) =>
      let count1 := min count (card.decoys.text_count + 1)
      if count1 < 2 then none
      else
        let ds := (card.decoys.choose_text r1 (count1 - 1)).1
        let r2 := (card.decoys.choose_text r1 (count1 - 1)).2
        let correct_index := (genRange count1 r2).1
        some ⟨ds.take correct_index ++ correct_answer :: ds.drop correct_index, correct_index⟩

/-- `Question::question` from src/question.rs: the text shown to the player. -/
def Question.question (q : Question) (r : Rng) : Option Str × Rng :=
  match q.ty with
  | .flashcard ci side =>
    ((q.set.flashcards.getD ci Flashcard.blank).index side.not).any_text r
  | .mcCard ci => (q.set.mc_cards.getD ci McCard.blank).question.any_text r

/-- `Question::is_correct_answer` from src/question.rs. -/
def Question.is_correct_answer (q : Question) (answer : Str) : Bool :=
  match q.ty with
  | .flashcard ci side =>
    ((q.set.flashcards.getD ci Flashcard.blank).index side).matches_text
      (q.set.flashcard_recall_settings side) answer
  | .mcCard ci =>
    (q.set.mc_cards.getD ci McCard.blank).answer.matches_text q.set.recall_mc answer

/-- The `CardSide` shown to the player by `Question::question` (the opposite
side for a flashcard question, the `question` field for a multiple-choice
question). -/
def Question.shown_side (q : Question) : CardSide :=
  match q.ty with
  | .flashcard ci side => (q.set.flashcards.getD ci Flashcard.blank).index side.not
  | .mcCard ci => (q.set.mc_cards.getD ci McCard.blank).question

/-- The answer-bearing `CardSide` of a question (the side under test for a
flashcard question, the `answer` field for a multiple-choice question). -/
def Question.answer_side (q : Question) : CardSide :=
  match q.ty with
  | .flashcard ci side => (q.set.flashcards.getD ci Flashcard.blank).index side
  | .mcCard ci => (q.set.mc_cards.getD ci McCard.blank).answer

/-- The largest number of distinct answer candidates `mc_answers` can draw
from for this question: every flashcard of the set for the flashcard variant,
the stored decoys plus the correct answer for the multiple-choice variant. -/
def Question.max_candidates (q : Question) : Nat :=
  match q.ty with
  | .flashcard _ _ => q.set.flashcards.length
  | .mcCard ci => (q.set.mc_cards.getD ci McCard.blank).decoys.text_count + 1

/-- `Conditions` from src/question.rs. -/
structure Conditions where
  include_card_back : Bool
  include_card_front : Bool
  include_mc : Bool
deriving DecidableEq

/-- `Conditions::INCLUDE_ALL`. -/
def Conditions.INCLUDE_ALL : Conditions := ⟨true, true, true⟩

/-- `Conditions::INCLUDE_NONE`. -/
def Conditions.INCLUDE_NONE : Conditions := ⟨false, false, false⟩

/-- `Questions` from src/question.rs: the iterator state.  Each of the three
Rust slice iterators is modelled as the list of indices it has yet to yield
(a slice iterator over a suffix of the owning set's card list is exactly its
remaining index sequence). -/
structure Questions where
  set : Set
  flashcards_back : List Nat
  flashcards_front : List Nat
  mc_cards : List Nat

/-- `Set::questions_inner` from src/question.rs: a category is iterated only
when the caller opted in and the corresponding recall policy is not `None`;
otherwise its iterator is empty. -/
def Set.questions_inner (s : Set) (c : Conditions) : Questions :=
  { set := s
    flashcards_front :=
      if c.include_card_front ∧ s.recall_front.typ ≠ RecallType.none then
        List.range s.flashcards.length
      else []
    flashcards_back :=
      if c.include_card_back ∧ s.recall_back.typ ≠ RecallType.none then
        List.range s.flashcards.length
      else []
    mc_cards :=
      if c.include_mc ∧ s.recall_mc.typ ≠ RecallType.none then
        List.range s.mc_cards.length
      else [] }

/-- `Set::questions`. -/
def Set.questions (s : Set) (c : Conditions) : Questions := s.questions_inner c

/-- `Iterator::next for Questions`: back-recall questions first, then
front-recall, then multiple choice. -/
def Questions.next (qs : Questions) : Option (Question × Questions) :=
  match qs.flashcards_back with
  | i :: rest => some (⟨qs.set, .flashcard i .Back⟩, { qs with flashcards_back := rest })
  | [] =>
    match qs.flashcards_front with
    | i :: rest => some (⟨qs.set, .flashcard i .Front⟩, { qs with flashcards_front := rest })
    | [] =>
      match qs.mc_cards with
      | i :: rest => some (⟨qs.set, .mcCard i⟩, { qs with mc_cards := rest })
      | [] => none

/-- `ExactSizeIterator::len for Questions`. -/
def Questions.len (qs : Questions) : Nat :=
  qs.flashcards_back.length + qs.flashcards_front.length + qs.mc_cards.length

/-- `Iterator::count for Questions` (forwards to `len`). -/
def Questions.count (qs : Questions) : Nat := qs.len

/-- The sequence obtained by repeatedly calling `next`, driven by a fuel
argument (each `next` shrinks `len` by one, so `len` fuel always suffices). -/
def Questions.nextListFuel : Nat → Questions → List Question
  | 0, _ => []
  | fuel + 1, qs =>
    match qs.next with
    | none => []
    | some (q, rest) => q :: nextListFuel fuel rest

/-- Full single-step consumption of the iterator via `next`. -/
def Questions.nextList (qs : Questions) : List Question :=
  Questions.nextListFuel qs.len qs

/-- `Iterator::for_each for Questions` (src/question.rs lines 306-320): visit
the three categories in back/front/mc chunks.  The `FnMut` closure is
modelled with its mutable state `σ` passed explicitly. -/
def Questions.forEachImpl {σ : Type u} (qs : Questions) (f : Question → σ → σ) (s0 : σ) : σ :=
  let s1 := qs.flashcards_back.foldl (fun s i => f ⟨qs.set, .flashcard i .Back⟩ s) s0
  let s2 := qs.flashcards_front.foldl (fun s i => f ⟨qs.set, .flashcard i .Front⟩ s) s1
  qs.mc_cards.foldl (fun s i => f ⟨qs.set, .mcCard i⟩ s) s2

/-- `Iterator::fold for Questions` (src/question.rs lines 322-338): fold the
three categories in back/front/mc order. -/
def Questions.foldImpl {β : Type u} (qs : Questions) (init : β) (f : β → Question → β) : β :=
  let acc1 := qs.flashcards_back.foldl (fun acc i => f acc ⟨qs.set, .flashcard i .Back⟩) init
  let acc2 := qs.flashcards_front.foldl (fun acc i => f acc ⟨qs.set, .flashcard i .Front⟩) acc1
  qs.mc_cards.foldl (fun acc i => f acc ⟨qs.set, .mcCard i⟩) acc2

/-! Concrete fixtures used by witnesses and counterexamples. -/

/-- A deterministic randomness source whose stream is constantly zero. -/
def rng0 : Rng := ⟨fun _ => 0, 0⟩

/-- A deterministic randomness source reading from an explicit list (zero once
the list is exhausted). -/
def rngOf (vals : List Nat) : Rng := ⟨fun p => vals.getD p 0, 0⟩

/-- `Set::example` from src/card.rs with all recall settings defaulted
(`Set::example_recall_default`): six flashcards `a..f`/`0..5` and four
multiple-choice cards with three decoys each. -/
def exSet6 : Set :=
  { recall_back := RecallSettings.default
    recall_front := RecallSettings.default
    recall_mc := RecallSettings.default
    flashcards :=
      [⟨⟨[str "a"]⟩, ⟨[str "0"]⟩⟩, ⟨⟨[str "b"]⟩, ⟨[str "1"]⟩⟩,
       ⟨⟨[str "c"]⟩, ⟨[str "2"]⟩⟩, ⟨⟨[str "d"]⟩, ⟨[str "3"]⟩⟩,
       ⟨⟨[str "e"]⟩, ⟨[str "4"]⟩⟩, ⟨⟨[str "f"]⟩, ⟨[str "5"]⟩⟩]
    mc_cards :=
      [⟨⟨[str "0mc"]⟩, ⟨[str "0answer"]⟩, ⟨[str "0decoy0", str "0decoy1", str "0decoy2"]⟩⟩,
       ⟨⟨[str "1mc"]⟩, ⟨[str "1answer"]⟩, ⟨[str "1decoy0", str "1decoy1", str "1decoy2"]⟩⟩,
       ⟨⟨[str "2mc"]⟩, ⟨[str "2answer"]⟩, ⟨[str "2decoy0", str "2decoy1", str "2decoy2"]⟩⟩,
       ⟨⟨[str "3mc"]⟩, ⟨[str "3answer"]⟩, ⟨[str "3decoy0", str "3decoy1", str "3decoy2"]⟩⟩] }

/-- A two-flashcard set (used to exercise the decoy search on small data). -/
def exSet2 : Set :=
  { recall_back := RecallSettings.default
    recall_front := RecallSettings.default
    recall_mc := RecallSettings.default
    flashcards := [⟨⟨[str "a"]⟩, ⟨[str "0"]⟩⟩, ⟨⟨[str "b"]⟩, ⟨[str "1"]⟩⟩]
    mc_cards := [] }

/-- The back-recall question about the second flashcard of `exSet2`. -/
def exQ2 : Question := ⟨exSet2, .flashcard 1 .Back⟩

/-- A set holding one multiple-choice card whose stored decoy text is
literally the answer text. -/
def exMcSet : Set :=
  { recall_back := RecallSettings.default
    recall_front := RecallSettings.default
    recall_mc := RecallSettings.default
    flashcards := []
    mc_cards := [⟨⟨[str "q"]⟩, ⟨[str "x"]⟩, ⟨[str "x"]⟩⟩] }

/-- The question generated from `exMcSet`'s single multiple-choice card. -/
def exMcQ : Question := ⟨exMcSet, .mcCard 0⟩

/-- A set whose single flashcard has no text at all. -/
def exBlankSet : Set :=
  { recall_back := RecallSettings.default
    recall_front := RecallSettings.default
    recall_mc := RecallSettings.default
    flashcards := [Flashcard.blank]
    mc_cards := [] }

/-- The front-recall question about `exBlankSet`'s blank flashcard. -/
def exBlankQ : Question := ⟨exBlankSet, .flashcard 0 .Front⟩

/-- The question about `exSet6`'s first flashcard, back recall. -/
def exQ6 : Question := ⟨exSet6, .flashcard 0 .Back⟩

/-- The question about `exSet6`'s first multiple-choice card. -/
def exMcQ6 : Question := ⟨exSet6, .mcCard 0⟩

/-- A randomness source steering `exQ6.mc_answers` to pick the five distinct
decoys `1..5` in order and then insert the correct text at index 0. -/
def rngSeq : Rng := rngOf [0, 1, 0, 2, 0, 3, 0, 4, 0, 5, 0, 0]

/-- The list `exQ2.mc_answers 3 rng0` evaluates to. -/
def exL2 : McList := ⟨[str "1", str "0"], 0⟩

/-! ### Helper lemmas about trimming and case folding -/

theorem dropWhile_trim (l : Str) : List.dropWhile isWhite (trim l) = trim l := by
  cases h : trim l with
  | nil => simp [h]
  | cons a t =>
    have hpre : List.rdropWhile isWhite (List.dropWhile isWhite l) <+: List.dropWhile isWhite l :=
      List.rdropWhile_prefix isWhite (List.dropWhile isWhite l)
    rw [show List.rdropWhile isWhite (List.dropWhile isWhite l) = trim l from rfl, h] at hpre
    obtain ⟨rest, hrest⟩ := hpre
    have hne : List.dropWhile isWhite l ≠ [] := by
      rw [← hrest]; simp
    have hd : List.dropWhile isWhite l = a :: (t ++ rest) := by
      rw [← hrest]; simp
    have hhead := List.head_dropWhile_not isWhite l hne
    simp only [hd, List.head_cons] at hhead
    simp [List.dropWhile_cons, hhead]

theorem trim_idem (l : Str) : trim (trim l) = trim l := by
  show List.rdropWhile isWhite (List.dropWhile isWhite (trim l)) = trim l
  rw [dropWhile_trim]
  show List.rdropWhile isWhite (List.rdropWhile isWhite (List.dropWhile isWhite l)) = _
  exact List.rdropWhile_idempotent isWhite _

theorem foldTable_vals : ∀ p ∈ foldTable, foldChar p.2 = p.2 := by decide

theorem foldTable_white : ∀ p ∈ foldTable, isWhite p.1 = false ∧ isWhite p.2 = false := by
  decide

theorem foldChar_idem (c : Char) : foldChar (foldChar c) = foldChar c := by
  cases h : foldTable.find? (fun p => p.1 == c) with
  | none => simp [foldChar, h]
  | some p =>
    have hmem := List.mem_of_find?_eq_some h
    have hc : foldChar c = p.2 := by simp [foldChar, h]
    rw [hc]
    exact foldTable_vals p hmem

theorem isWhite_foldChar (c : Char) : isWhite (foldChar c) = isWhite c := by
  cases h : foldTable.find? (fun p => p.1 == c) with
  | none => simp [foldChar, h]
  | some p =>
    have hmem := List.mem_of_find?_eq_some h
    have hkey : p.1 = c := by simpa using List.find?_some h
    have hc : foldChar c = p.2 := by simp [foldChar, h]
    rw [hc, (foldTable_white p hmem).2, ← hkey, (foldTable_white p hmem).1]

theorem isWhite_comp_foldChar : isWhite ∘ foldChar = isWhite :=
  funext fun c => isWhite_foldChar c

theorem dropWhile_map_fold (l : Str) :
    List.dropWhile isWhite (l.map foldChar) = (List.dropWhile isWhite l).map foldChar := by
  rw [List.dropWhile_map, isWhite_comp_foldChar]

theorem rdropWhile_map_fold (l : Str) :
    List.rdropWhile isWhite (l.map foldChar) = (List.rdropWhile isWhite l).map foldChar := by
  simp [List.rdropWhile, ← List.map_reverse, List.dropWhile_map, isWhite_comp_foldChar]

theorem trim_map_fold (l : Str) : trim (l.map foldChar) = (trim l).map foldChar := by
  show List.rdropWhile isWhite (List.dropWhile isWhite (l.map foldChar)) = _
  rw [dropWhile_map_fold, rdropWhile_map_fold]
  rfl

theorem map_fold_idem (l : Str) : (l.map foldChar).map foldChar = l.map foldChar := by
  rw [List.map_map]
  exact List.map_congr_left fun c _ => foldChar_idem c

theorem unicaseEq_map_fold_left (a b : Str) :
    unicaseEq (a.map foldChar) b = unicaseEq a b := by
  unfold unicaseEq
  rw [map_fold_idem]

theorem unicaseEq_map_fold_right (a b : Str) :
    unicaseEq a (b.map foldChar) = unicaseEq a b := by
  unfold unicaseEq
  rw [map_fold_idem]

theorem test_match_refl (rules : RecallSettings) (a : Str) :
    rules.test_match a a = true := by
  cases hc : rules.check_caps <;> simp [RecallSettings.test_match, hc, unicaseEq]

theorem matches_text_of_mem {cs : CardSide} {t : Str} (rules : RecallSettings)
    (h : t ∈ cs.text) : cs.matches_text rules t = true := by
  unfold CardSide.matches_text
  rw [List.any_eq_true]
  exact ⟨t, h, test_match_refl rules t⟩

/-- C7: `test_match` trims both operands (so it is trim-insensitive), compares
case-insensitively via Unicode case folding (not ASCII lowering — witness the
`É`/`é` pair) exactly when `check_caps` is false, and exactly otherwise; the
claim's `ignore_caps` is the negation of the source's `check_caps` field. -/
theorem c7_test_match :
    (∀ (rules : RecallSettings) (a b : Str),
       rules.test_match (trim a) (trim b) = rules.test_match a b) ∧
    (∀ (t : RecallType) (a b : Str),
       (RecallSettings.mk t false).test_match (a.map foldChar) b =
         (RecallSettings.mk t false).test_match a b ∧
       (RecallSettings.mk t false).test_match a (b.map foldChar) =
         (RecallSettings.mk t false).test_match a b) ∧
    (∀ (t : RecallType) (a b : Str),
       (RecallSettings.mk t true).test_match a b = (trim a == trim b)) ∧
    ((RecallSettings.mk .mc false).test_match (str "a") (str "A ") = true ∧
     (RecallSettings.mk .mc false).test_match (str "a") (str " a") = true ∧
     (RecallSettings.mk .mc true).test_match (str "a") (str "A") = false ∧
     (RecallSettings.mk .mc false).test_match (str "É") (str "é") = true) :=
  ⟨fun rules a b => by
      cases hc : rules.check_caps <;>
        simp [RecallSettings.test_match, hc, trim_idem],
   fun t a b =>
     ⟨by simp [RecallSettings.test_match, trim_map_fold, unicaseEq_map_fold_left],
      by simp [RecallSettings.test_match, trim_map_fold, unicaseEq_map_fold_right]⟩,
   fun t a b => by simp [RecallSettings.test_match],
   by decide, by decide, by decide, by decide⟩

/-! ### Helper lemmas about random selection and list surgery -/

theorem any_text_fst_none_iff (cs : CardSide) (r : Rng) :
    (cs.any_text r).1 = none ↔ cs.text = [] := by
  unfold CardSide.any_text
  by_cases h : cs.text.isEmpty <;>
    simp_all [List.isEmpty_iff]

theorem any_text_eq_some {cs : CardSide} {r r' : Rng} {t : Str}
    (h : cs.any_text r = (some t, r')) : t ∈ cs.text := by
  unfold CardSide.any_text at h
  cases hx : cs.text with
  | nil => rw [hx] at h; simp at h
  | cons a l =>
    rw [hx] at h
    have hlt : r.stream r.pos % (a :: l).length < (a :: l).length :=
      Nat.mod_lt _ (by simp)
    simp only [List.isEmpty_cons, Bool.false_eq_true, if_false, genRange, Rng.next] at h
    rw [Prod.mk.injEq] at h
    obtain ⟨h1, -⟩ := h
    rw [← Option.some.inj h1, List.getD_eq_getElem _ _ hlt]
    exact List.getElem_mem hlt

theorem sampleStrs_length : ∀ (n : Nat) (l : List Str) (r : Rng),
    (sampleStrs n l r).1.length = min n l.length := by
  intro n
  induction n with
  | zero => intro l r; simp [sampleStrs]
  | succ n ih =>
    intro l r
    cases l with
    | nil => simp [sampleStrs]
    | cons x xs =>
      simp only [sampleStrs]
      have hlt : (r.next).1 % (x :: xs).length < (x :: xs).length :=
        Nat.mod_lt _ (by simp)
      rw [List.length_cons, ih]
      rw [List.length_append, List.length_take, List.length_drop]
      simp only [List.length_cons] at hlt ⊢
      omega

theorem sampleStrs_subset : ∀ (n : Nat) (l : List Str) (r : Rng),
    ∀ y ∈ (sampleStrs n l r).1, y ∈ l := by
  intro n
  induction n with
  | zero => intro l r y hy; simp [sampleStrs] at hy
  | succ n ih =>
    intro l r y hy
    cases l with
    | nil => simp [sampleStrs] at hy
    | cons x xs =>
      simp only [sampleStrs, List.mem_cons] at hy
      have hlen : 0 < (x :: xs).length := by simp
      have hlt : (r.next).1 % (x :: xs).length < (x :: xs).length := Nat.mod_lt _ hlen
      rcases hy with hy | hy
      · rw [hy, List.getD_eq_getElem _ _ hlt]
        exact List.getElem_mem hlt
      · have := ih _ _ _ hy
        rcases List.mem_append.mp this with hmem | hmem
        · exact List.mem_of_mem_take hmem
        · exact List.mem_of_mem_drop hmem

theorem getD_append_cons (A B : List Str) (x : Str) :
    (A ++ x :: B).getD A.length [] = x := by
  induction A with
  | nil => rfl
  | cons a A ih => simpa using ih

theorem insertAt_length {l : List Str} {i : Nat} (x : Str) (h : i ≤ l.length) :
    (insertAt l i x).length = l.length + 1 := by
  unfold insertAt
  rw [List.length_append, List.length_take, List.length_cons, List.length_drop]
  omega

theorem insertAt_getD {l : List Str} {i : Nat} (x : Str) (h : i ≤ l.length) :
    (insertAt l i x).getD i [] = x := by
  have h2 := getD_append_cons (l.take i) (l.drop i) x
  rw [List.length_take] at h2
  rw [show min i l.length = i by omega] at h2
  exact h2

theorem insertAt_count {l : List Str} {i : Nat} (x : Str) :
    (insertAt l i x).count x = l.count x + 1 := by
  unfold insertAt
  rw [List.count_append, List.count_cons_self]
  conv_rhs => rw [← List.take_append_drop i l, List.count_append]
  omega

/-- C8: `question` returns absence exactly when the shown `CardSide` (the
opposite side for a flashcard question, the `question` field for an mc-card
question) has no text variants, and any returned text is one of that side's
variants. -/
theorem c8_question (q : Question) (r : Rng) :
    ((q.question r).1 = none ↔ q.shown_side.text = []) ∧
    (∀ t, (q.question r).1 = some t → t ∈ q.shown_side.text) := by
  obtain ⟨s, ty⟩ := q
  cases ty with
  | flashcard ci side =>
    constructor
    · exact any_text_fst_none_iff _ r
    · intro t ht
      have ht' : (((s.flashcards.getD ci Flashcard.blank).index side.not).any_text r).1 = some t := ht
      rcases hpair : ((s.flashcards.getD ci Flashcard.blank).index side.not).any_text r with ⟨o, r2⟩
      rw [hpair] at ht'
      have ho : o = some t := ht'
      exact any_text_eq_some (ho ▸ hpair)
  | mcCard ci =>
    constructor
    · exact any_text_fst_none_iff _ r
    · intro t ht
      have ht' : ((s.mc_cards.getD ci McCard.blank).question.any_text r).1 = some t := ht
      rcases hpair : (s.mc_cards.getD ci McCard.blank).question.any_text r with ⟨o, r2⟩
      rw [hpair] at ht'
      have ho : o = some t := ht'
      exact any_text_eq_some (ho ▸ hpair)

/-- Witness for C8 at a concrete question: the back-recall question about
`exSet2`'s second flashcard shows that card's front text "b". -/
theorem c8_witness : str "b" ∈ (Question.shown_side exQ2).text :=
  (c8_question exQ2 rng0).2 (str "b") (by decide)

/-- C10: a question whose answer-bearing `CardSide` has no text variants has
no correct answer: `is_correct_answer` is false on every candidate. -/
theorem c10_empty_answer (q : Question) (h : q.answer_side.text = [])
    (a : Str) : q.is_correct_answer a = false := by
  obtain ⟨s, ty⟩ := q
  cases ty with
  | flashcard ci side =>
    have h' : ((s.flashcards.getD ci Flashcard.blank).index side).text = [] := h
    show ((s.flashcards.getD ci Flashcard.blank).index side).matches_text
      (s.flashcard_recall_settings side) a = false
    unfold CardSide.matches_text
    rw [h']
    rfl
  | mcCard ci =>
    have h' : ((s.mc_cards.getD ci McCard.blank).answer).text = [] := h
    show ((s.mc_cards.getD ci McCard.blank).answer).matches_text s.recall_mc a = false
    unfold CardSide.matches_text
    rw [h']
    rfl

/-- Witness for C10 at a concrete question over a blank flashcard. -/
theorem c10_witness : Question.is_correct_answer exBlankQ (str "x") = false :=
  c10_empty_answer exBlankQ (by decide) (str "x")

/-! ### The Questions iterator -/

theorem nextListFuel_eq : ∀ (n : Nat) (qs : Questions), qs.len ≤ n →
    Questions.nextListFuel n qs =
      qs.flashcards_back.map (fun i => ⟨qs.set, .flashcard i .Back⟩) ++
      qs.flashcards_front.map (fun i => ⟨qs.set, .flashcard i .Front⟩) ++
      qs.mc_cards.map (fun i => ⟨qs.set, .mcCard i⟩) := by
  intro n
  induction n with
  | zero =>
    intro qs hlen
    obtain ⟨s, b, f, m⟩ := qs
    unfold Questions.len at hlen
    simp only [Nat.le_zero] at hlen
    cases b <;> cases f <;> cases m <;> simp_all [Questions.nextListFuel]
  | succ n ih =>
    intro qs hlen
    obtain ⟨s, b, f, m⟩ := qs
    unfold Questions.len at hlen
    simp only [] at hlen
    cases b with
    | cons i rest =>
      simp only [Questions.nextListFuel, Questions.next]
      rw [ih ⟨s, rest, f, m⟩ (by
        simp only [Questions.len, List.length_nil, List.length_cons] at hlen ⊢; omega)]
      simp
    | nil =>
      cases f with
      | cons i rest =>
        simp only [Questions.nextListFuel, Questions.next]
        rw [ih ⟨s, [], rest, m⟩ (by
          simp only [Questions.len, List.length_nil, List.length_cons] at hlen ⊢; omega)]
        simp
      | nil =>
        cases m with
        | cons i rest =>
          simp only [Questions.nextListFuel, Questions.next]
          rw [ih ⟨s, [], [], rest⟩ (by
            simp only [Questions.len, List.length_nil, List.length_cons] at hlen ⊢; omega)]
          simp
        | nil => simp [Questions.nextListFuel, Questions.next]

theorem nextList_eq (qs : Questions) :
    qs.nextList =
      qs.flashcards_back.map (fun i => ⟨qs.set, .flashcard i .Back⟩) ++
      qs.flashcards_front.map (fun i => ⟨qs.set, .flashcard i .Front⟩) ++
      qs.mc_cards.map (fun i => ⟨qs.set, .mcCard i⟩) :=
  nextListFuel_eq qs.len qs le_rfl

/-- C4: the reported length of the `Questions` sequence is the sum over the
three categories, each contributing its card count exactly when the caller
opted in and the `Set`'s recall policy for it is not `None`. -/
theorem c4_len (s : Set) (c : Conditions) :
    (s.questions c).len =
      (if c.include_card_back ∧ s.recall_back.typ ≠ RecallType.none
        then s.flashcards.length else 0) +
      (if c.include_card_front ∧ s.recall_front.typ ≠ RecallType.none
        then s.flashcards.length else 0) +
      (if c.include_mc ∧ s.recall_mc.typ ≠ RecallType.none
        then s.mc_cards.length else 0) := by
  unfold Set.questions Set.questions_inner Questions.len
  split_ifs <;> simp

/-- C5: consuming the `Questions` sequence by repeated `next` yields exactly
the included back-recall questions in source order, then the included
front-recall questions in source order, then the included multiple-choice
questions in source order — so every back-recall question precedes every
front-recall question, which precedes every multiple-choice question. -/
theorem c5_category_order (s : Set) (c : Conditions) :
    (s.questions c).nextList =
      (if c.include_card_back ∧ s.recall_back.typ ≠ RecallType.none then
        (List.range s.flashcards.length).map (fun i => ⟨s, .flashcard i .Back⟩)
       else []) ++
      (if c.include_card_front ∧ s.recall_front.typ ≠ RecallType.none then
        (List.range s.flashcards.length).map (fun i => ⟨s, .flashcard i .Front⟩)
       else []) ++
      (if c.include_mc ∧ s.recall_mc.typ ≠ RecallType.none then
        (List.range s.mc_cards.length).map (fun i => ⟨s, .mcCard i⟩)
       else []) := by
  rw [nextList_eq]
  unfold Set.questions Set.questions_inner
  split_ifs <;> simp

/-- C6: the three consumption styles of a `Questions` value — repeated
single-step `next` (as captured by `nextList`), the chunked `for_each`
override, and the chunked `fold` override — visit the identical questions in
the identical order and agree with the reported count; since the state is a
pure value, any clone re-traverses the same sequence. -/
theorem c6_traversal_agreement {σ β : Type u} (qs : Questions)
    (f : Question → σ → σ) (s0 : σ) (init : β) (g : β → Question → β) :
    qs.forEachImpl f s0 = qs.nextList.foldl (fun st q => f q st) s0 ∧
    qs.foldImpl init g = qs.nextList.foldl g init ∧
    qs.count = qs.nextList.length := by
  rw [nextList_eq]
  refine ⟨?_, ?_, ?_⟩
  · simp [Questions.forEachImpl, List.foldl_append, List.foldl_map]
  · simp [Questions.foldImpl, List.foldl_append, List.foldl_map]
  · simp only [Questions.count, Questions.len, List.length_append, List.length_map]

/-! ### The decoy-collection loop -/

theorem findDecoys_invariant (s : Set) (ci : Nat) (side : Side) (ans : CardSide)
    (rules : RecallSettings) (brk : Nat) :
    ∀ (fuel : Nat) (acc : List Str) (r : Rng),
      (∀ x ∈ acc, ans.matches_text rules x = false) → acc.Nodup →
      (∀ x ∈ (findDecoys s ci side ans rules brk fuel acc r).1,
        ans.matches_text rules x = false) ∧
      (findDecoys s ci side ans rules brk fuel acc r).1.Nodup := by
  intro fuel
  induction fuel with
  | zero => intro acc r hm hn; exact ⟨hm, hn⟩
  | succ fuel ih =>
    intro acc r hm hn
    simp only [findDecoys]
    split
    · exact ⟨hm, hn⟩
    · split
      · exact ih acc _ hm hn
      · split
        · exact ih acc _ hm hn
        · next text r2 hta =>
          split
          · exact ih acc _ hm hn
          · next hcond =>
            rw [Bool.or_eq_true, not_or] at hcond
            obtain ⟨hmatch, hcont⟩ := hcond
            have hmatch' : ans.matches_text rules text = false :=
              Bool.not_eq_true _ ▸ (by simpa using hmatch)
            have hnotmem : text ∉ acc := by
              intro hmem
              exact hcont (by simpa using hmem)
            have hm' : ∀ x ∈ acc ++ [text], ans.matches_text rules x = false := by
              intro x hx
              rcases List.mem_append.mp hx with hx | hx
              · exact hm x hx
              · rw [List.mem_singleton.mp hx]
                exact hmatch'
            have hn' : (acc ++ [text]).Nodup :=
              ((List.perm_append_singleton text acc).nodup_iff).mpr
                (List.nodup_cons.mpr ⟨hnotmem, hn⟩)
            split
            · exact ⟨hm', hn'⟩
            · exact ih _ _ hm' hn'

theorem findDecoys_length_le_brk (s : Set) (ci : Nat) (side : Side) (ans : CardSide)
    (rules : RecallSettings) (brk : Nat) :
    ∀ (fuel : Nat) (acc : List Str) (r : Rng), acc.length < brk →
      (findDecoys s ci side ans rules brk fuel acc r).1.length ≤ brk := by
  intro fuel
  induction fuel with
  | zero => intro acc r h; exact Nat.le_of_lt h
  | succ fuel ih =>
    intro acc r h
    simp only [findDecoys]
    split
    · exact Nat.le_of_lt h
    · split
      · exact ih acc _ h
      · split
        · exact ih acc _ h
        · split
          · exact ih acc _ h
          · split
            · next heq => exact Nat.le_of_eq heq
            · next hne =>
              refine ih _ _ ?_
              rw [List.length_append, List.length_singleton]
              rw [List.length_append, List.length_singleton] at hne
              omega

theorem findDecoys_length_le_fuel (s : Set) (ci : Nat) (side : Side) (ans : CardSide)
    (rules : RecallSettings) (brk : Nat) :
    ∀ (fuel : Nat) (acc : List Str) (r : Rng),
      (findDecoys s ci side ans rules brk fuel acc r).1.length ≤ acc.length + fuel := by
  intro fuel
  induction fuel with
  | zero => intro acc r; exact Nat.le_refl _
  | succ fuel ih =>
    intro acc r
    simp only [findDecoys]
    split
    · show acc.length ≤ acc.length + (fuel + 1); omega
    · split
      · exact Nat.le_trans (ih acc _) (by omega)
      · split
        · exact Nat.le_trans (ih acc _) (by omega)
        · split
          · exact Nat.le_trans (ih acc _) (by omega)
          · split
            · rw [List.length_append, List.length_singleton]; omega
            · exact Nat.le_trans (ih _ _)
                (by rw [List.length_append, List.length_singleton]; omega)

/-- When the set has a single flashcard and the question is about it, every
attempt picks the tested card itself and the loop collects nothing. -/
theorem findDecoys_single (s : Set) (side : Side) (ans : CardSide)
    (rules : RecallSettings) (brk : Nat) (hlen : s.flashcards.length = 1) :
    ∀ (fuel : Nat) (acc : List Str) (r : Rng),
      (findDecoys s 0 side ans rules brk fuel acc r).1 = acc := by
  intro fuel
  induction fuel with
  | zero => intro acc r; rfl
  | succ fuel ih =>
    intro acc r
    simp only [findDecoys]
    split
    · rfl
    · split
      · exact ih acc _
      · next hj =>
        exfalso
        rw [hlen, Nat.mod_one] at hj
        exact hj rfl

theorem genRange_fst_lt {n : Nat} (r : Rng) (h : 0 < n) : (genRange n r).1 < n := by
  show r.stream r.pos % n < n
  exact Nat.mod_lt _ h

/-- Decomposition of a successful flashcard-variant `mc_answers` call: some
variant `ct` of the side under test was drawn, the decoy loop returned a
non-empty list `D`, and the result inserts `ct` into `D` at an index below
`D`'s length. -/
theorem mc_answers_flashcard_some {s : Set} {ci : Nat} {side : Side}
    {count : Nat} {r : Rng} {l : McList}
    (hsome : Question.mc_answers ⟨s, .flashcard ci side⟩ count r = some l) :
    ∃ (ct : Str) (r1 : Rng) (D : List Str) (I : Nat),
      ((s.flashcards.getD ci Flashcard.blank).index side).any_text r = (some ct, r1) ∧
      D = (findDecoys s ci side ((s.flashcards.getD ci Flashcard.blank).index side)
            (s.flashcard_recall_settings side) (usizeSub1 (min count s.flashcards.length))
            FIND_DECOY_ATTEMPTS [] r1).1 ∧
      D ≠ [] ∧ I < D.length ∧ l = ⟨insertAt D I ct, I⟩ := by
  simp only [Question.mc_answers] at hsome
  rcases hta : ((s.flashcards.getD ci Flashcard.blank).index side).any_text r with ⟨tc, r1⟩
  rw [hta] at hsome
  cases tc with
  | none => simp at hsome
  | some ct =>
    split at hsome
    · exact absurd hsome (by simp)
    · next text r2 hne =>
      rw [Prod.mk.injEq] at hne
      obtain ⟨hct, hr⟩ := hne
      cases Option.some.inj hct
      cases hr
      split at hsome
      · exact absurd hsome (by simp)
      · next hnemp =>
        rw [Bool.not_eq_true] at hnemp
        have hne : (findDecoys s ci side ((s.flashcards.getD ci Flashcard.blank).index side)
            (s.flashcard_recall_settings side) (usizeSub1 (min count s.flashcards.length))
            FIND_DECOY_ATTEMPTS [] r1).1 ≠ [] := by
          intro h
          rw [h] at hnemp
          simp at hnemp
        refine ⟨ct, r1, _, _, rfl, rfl, hne, ?_, (Option.some.inj hsome).symm⟩
        exact genRange_fst_lt _ (List.length_pos.mpr hne)

/-- Decomposition of a successful mc-card-variant `mc_answers` call: some
variant `ct` of the answer side was drawn, the capped count was at least two,
`DS` decoys were sampled from the stored bag, and the result inserts `ct`
among them at an index below the capped count. -/
theorem mc_answers_mc_some {s : Set} {ci : Nat} {count : Nat} {r : Rng} {l : McList}
    (hsome : Question.mc_answers ⟨s, .mcCard ci⟩ count r = some l) :
    ∃ (ct : Str) (r1 : Rng) (DS : List Str) (I : Nat),
      (s.mc_cards.getD ci McCard.blank).answer.any_text r = (some ct, r1) ∧
      2 ≤ min count ((s.mc_cards.getD ci McCard.blank).decoys.text_count + 1) ∧
      DS = ((s.mc_cards.getD ci McCard.blank).decoys.choose_text r1
              (min count ((s.mc_cards.getD ci McCard.blank).decoys.text_count + 1) - 1)).1 ∧
      I < min count ((s.mc_cards.getD ci McCard.blank).decoys.text_count + 1) ∧
      l = ⟨insertAt DS I ct, I⟩ := by
  simp only [Question.mc_answers] at hsome
  rcases hta : (s.mc_cards.getD ci McCard.blank).answer.any_text r with ⟨tc, r1⟩
  rw [hta] at hsome
  cases tc with
  | none => simp at hsome
  | some ct =>
    split at hsome
    · exact absurd hsome (by simp)
    · next text r2 hne =>
      rw [Prod.mk.injEq] at hne
      obtain ⟨hct, hr⟩ := hne
      cases Option.some.inj hct
      cases hr
      split at hsome
      · exact absurd hsome (by simp)
      · next hge =>
        rw [Nat.not_lt] at hge
        refine ⟨ct, r1, _, _, rfl, hge, rfl, ?_, (Option.some.inj hsome).symm⟩
        exact genRange_fst_lt _ (by omega)

/-- C1 counterexample: for the multiple-choice-card variant the correct
string need not appear exactly once — on a card whose stored decoy text
equals its answer text, `mc_answers 2` returns the list `["x", "x"]`, in
which `correct()` appears twice. -/
theorem c1_counterexample :
    (Question.mc_answers exMcQ 2 rng0).map (fun l => l.list.count l.correct) = some 2 := by
  decide

/-- C1 (amended): whenever `mc_answers` returns a list,
`is_correct_answer (list.correct())` holds; the string `list.correct()`
appears exactly once in the list for the flashcard variant, and for the
multiple-choice-card variant provided no stored decoy string equals the
correct entry's text. -/
theorem c1_amended (q : Question) (count : Nat) (r : Rng) (l : McList)
    (hsome : q.mc_answers count r = some l) :
    q.is_correct_answer l.correct = true ∧
    (∀ ci side, q.ty = QuestionTy.flashcard ci side → l.list.count l.correct = 1) ∧
    (∀ ci, q.ty = QuestionTy.mcCard ci →
      (∀ d ∈ (q.set.mc_cards.getD ci McCard.blank).decoys.text, d ≠ l.correct) →
      l.list.count l.correct = 1) := by
  obtain ⟨s, ty⟩ := q
  cases ty with
  | flashcard ci side =>
    obtain ⟨ct, r1, D, I, hta, hD, hne, hI, hl⟩ := mc_answers_flashcard_some hsome
    subst hl
    have hcorr : McList.correct ⟨insertAt D I ct, I⟩ = ct :=
      insertAt_getD ct (Nat.le_of_lt hI)
    have hctmem : ct ∈ ((s.flashcards.getD ci Flashcard.blank).index side).text :=
      any_text_eq_some hta
    refine ⟨?_, ?_, ?_⟩
    · rw [hcorr]
      show ((s.flashcards.getD ci Flashcard.blank).index side).matches_text
        (s.flashcard_recall_settings side) ct = true
      exact matches_text_of_mem _ hctmem
    · intro ci' side' hty
      show (insertAt D I ct).count (McList.correct ⟨insertAt D I ct, I⟩) = 1
      rw [hcorr, insertAt_count]
      have hinv := (findDecoys_invariant s ci side
        ((s.flashcards.getD ci Flashcard.blank).index side)
        (s.flashcard_recall_settings side) (usizeSub1 (min count s.flashcards.length))
        FIND_DECOY_ATTEMPTS [] r1 (by intro x hx; simp at hx) List.nodup_nil).1
      have hnotin : ct ∉ D := by
        intro hin
        have hfalse := hinv ct (hD ▸ hin)
        rw [matches_text_of_mem _ hctmem] at hfalse
        simp at hfalse
      rw [List.count_eq_zero.mpr hnotin]
    · intro ci' hty
      exact QuestionTy.noConfusion hty
  | mcCard ci =>
    obtain ⟨ct, r1, DS, I, hta, h2, hDS, hI, hl⟩ := mc_answers_mc_some hsome
    subst hl
    have hDSlen : DS.length =
        min count ((s.mc_cards.getD ci McCard.blank).decoys.text_count + 1) - 1 := by
      rw [hDS]
      show (sampleStrs _ _ _).1.length = _
      rw [sampleStrs_length]
      have hmin : min count ((s.mc_cards.getD ci McCard.blank).decoys.text_count + 1)
          ≤ (s.mc_cards.getD ci McCard.blank).decoys.text_count + 1 := Nat.min_le_right _ _
      unfold Decoys.text_count at *
      omega
    have hIle : I ≤ DS.length := by omega
    have hcorr : McList.correct ⟨insertAt DS I ct, I⟩ = ct := insertAt_getD ct hIle
    have hctmem : ct ∈ (s.mc_cards.getD ci McCard.blank).answer.text :=
      any_text_eq_some hta
    refine ⟨?_, ?_, ?_⟩
    · rw [hcorr]
      show (s.mc_cards.getD ci McCard.blank).answer.matches_text s.recall_mc ct = true
      exact matches_text_of_mem _ hctmem
    · intro ci' side' hty
      exact QuestionTy.noConfusion hty
    · intro ci' hty hd
      injection hty with hci
      subst hci
      show (insertAt DS I ct).count (McList.correct ⟨insertAt DS I ct, I⟩) = 1
      rw [hcorr, insertAt_count]
      have hnotin : ct ∉ DS := by
        intro hin
        have hmem' : ct ∈ (s.mc_cards.getD ci McCard.blank).decoys.text :=
          sampleStrs_subset _ _ _ ct (hDS ▸ hin)
        exact (hd ct hmem') hcorr.symm
      rw [List.count_eq_zero.mpr hnotin]

/-- Witness for C1's amended theorem at a concrete flashcard question: the
back-recall question on `exSet2`'s second card yields `["1", "0"]` with
correct entry "1", which is a correct answer and appears once. -/
theorem c1_witness :
    Question.mc_answers exQ2 3 rng0 = some exL2 ∧
    Question.is_correct_answer exQ2 (McList.correct exL2) = true :=
  ⟨by decide, (c1_amended exQ2 3 rng0 exL2 (by decide)).1⟩

/-- C2: the flashcard variant draws the insertion index from
`0..list.len()` — the number of collected decoys — rather than the
decoys-plus-one range, so the correct answer can never occupy the last
position of the returned list: its index is always strictly below
`length - 1`. -/
theorem c2_flashcard_never_last (q : Question) (ci : Nat) (side : Side)
    (count : Nat) (r : Rng) (l : McList)
    (hty : q.ty = QuestionTy.flashcard ci side)
    (hsome : q.mc_answers count r = some l) :
    l.correct_index + 1 < l.list.length := by
  obtain ⟨s, ty⟩ := q
  cases hty
  obtain ⟨ct, r1, D, I, hta, hD, hne, hI, hl⟩ := mc_answers_flashcard_some hsome
  subst hl
  show I + 1 < (insertAt D I ct).length
  rw [insertAt_length ct (Nat.le_of_lt hI)]
  omega

/-- Witness for C2's theorem at a concrete input: insertion among one decoy
always happens at index 0, the non-last position of the two-entry list. -/
theorem c2_witness :
    Question.ty exQ2 = QuestionTy.flashcard 1 Side.Back ∧
    Question.mc_answers exQ2 3 rng0 = some exL2 ∧
    McList.correct_index exL2 + 1 < exL2.list.length :=
  ⟨rfl, by decide,
   c2_flashcard_never_last exQ2 1 Side.Back 3 rng0 exL2 rfl (by decide)⟩

theorem usizeSub1_eq {n : Nat} (h1 : 1 ≤ n) (h2 : n < 2 ^ 64) :
    usizeSub1 n = n - 1 := by
  unfold usizeSub1
  have hsplit : n + (2 ^ 64 - 1) = (n - 1) + 2 ^ 64 := by omega
  rw [hsplit, Nat.add_mod_right]
  exact Nat.mod_eq_of_lt (by omega)

/-- C3 counterexample: a returned list can be LONGER than the requested
count.  Requesting `count = 1` from a flashcard question over two cards
yields a list of length 2 (with `count` capped to 1 the loop's break test
`len == count - 1` can never fire after a push, so a decoy is still
collected and the correct answer added on top). -/
theorem c3_counterexample :
    (Question.mc_answers exQ2 1 rng0).map (fun l => l.list.length) = some 2 := by
  decide

/-- C3 (amended): for requested counts of at least two, a returned list has
length at most `count` and at most the question's maximum number of distinct
candidates; the concrete scenarios hold as stated (256 requested on six
flashcards gives 6; 256 requested on an mc-card with three decoys gives 4). -/
theorem c3_amended :
    (∀ (q : Question) (count : Nat) (r : Rng) (l : McList),
       q.wf → 2 ≤ count → q.mc_answers count r = some l →
       l.list.length ≤ count ∧ l.list.length ≤ q.max_candidates) ∧
    (Question.mc_answers exQ6 256 rngSeq).map (fun l => l.list.length) = some 6 ∧
    (Question.mc_answers exMcQ6 256 rng0).map (fun l => l.list.length) = some 4 := by
  refine ⟨?_, by decide, by decide⟩
  intro q count r l hwf hcount hsome
  obtain ⟨s, ty⟩ := q
  cases ty with
  | flashcard ci side =>
    obtain ⟨ct, r1, D, I, hta, hD, hne, hI, hl⟩ := mc_answers_flashcard_some hsome
    subst hl
    have hwf' : ci < s.flashcards.length := hwf
    have hlen : (insertAt D I ct).length = D.length + 1 :=
      insertAt_length ct (Nat.le_of_lt hI)
    have hmax : Question.max_candidates ⟨s, .flashcard ci side⟩ =
        s.flashcards.length := rfl
    show (insertAt D I ct).length ≤ count ∧
      (insertAt D I ct).length ≤ Question.max_candidates ⟨s, .flashcard ci side⟩
    rcases Nat.lt_or_ge (min count s.flashcards.length) (2 ^ 64) with hsmall | hbig
    · rcases Nat.lt_or_ge (min count s.flashcards.length) 2 with hone | htwo
      · have hfc1 : s.flashcards.length = 1 := by omega
        have hci0 : ci = 0 := by omega
        subst hci0
        have hempty := findDecoys_single s side
          ((s.flashcards.getD 0 Flashcard.blank).index side)
          (s.flashcard_recall_settings side)
          (usizeSub1 (min count s.flashcards.length)) hfc1
          FIND_DECOY_ATTEMPTS [] r1
        rw [hempty] at hD
        exact absurd hD hne
      · have hbrk : usizeSub1 (min count s.flashcards.length) =
            min count s.flashcards.length - 1 := usizeSub1_eq (by omega) hsmall
        have hDb := findDecoys_length_le_brk s ci side
          ((s.flashcards.getD ci Flashcard.blank).index side)
          (s.flashcard_recall_settings side)
          (usizeSub1 (min count s.flashcards.length))
          FIND_DECOY_ATTEMPTS [] r1 (by rw [hbrk]; simp; omega)
        rw [← hD, hbrk] at hDb
        constructor
        · rw [hlen]; omega
        · rw [hlen, hmax]; omega
    · have hDf := findDecoys_length_le_fuel s ci side
        ((s.flashcards.getD ci Flashcard.blank).index side)
        (s.flashcard_recall_settings side)
        (usizeSub1 (min count s.flashcards.length))
        FIND_DECOY_ATTEMPTS [] r1
      rw [← hD] at hDf
      have h24 : D.length ≤ 24 := by
        simpa [FIND_DECOY_ATTEMPTS] using hDf
      constructor
      · rw [hlen]; omega
      · rw [hlen, hmax]; omega
  | mcCard ci =>
    obtain ⟨ct, r1, DS, I, hta, h2, hDS, hI, hl⟩ := mc_answers_mc_some hsome
    subst hl
    have hDSlen : DS.length =
        min count ((s.mc_cards.getD ci McCard.blank).decoys.text_count + 1) - 1 := by
      rw [hDS]
      show (sampleStrs _ _ _).1.length = _
      rw [sampleStrs_length]
      have hmin : min count ((s.mc_cards.getD ci McCard.blank).decoys.text_count + 1)
          ≤ (s.mc_cards.getD ci McCard.blank).decoys.text_count + 1 := Nat.min_le_right _ _
      unfold Decoys.text_count at *
      omega
    have hlen : (insertAt DS I ct).length = DS.length + 1 :=
      insertAt_length ct (by omega)
    have hmax : Question.max_candidates ⟨s, .mcCard ci⟩ =
        (s.mc_cards.getD ci McCard.blank).decoys.text_count + 1 := rfl
    show (insertAt DS I ct).length ≤ count ∧
      (insertAt DS I ct).length ≤ Question.max_candidates ⟨s, .mcCard ci⟩
    constructor
    · rw [hlen]
      have := Nat.min_le_left count ((s.mc_cards.getD ci McCard.blank).decoys.text_count + 1)
      omega
    · rw [hlen, hmax]
      have := Nat.min_le_right count ((s.mc_cards.getD ci McCard.blank).decoys.text_count + 1)
      omega

/-- Witness for C3's amended theorem at a concrete input. -/
theorem c3_witness :
    Question.wf exQ2 ∧ 2 ≤ 3 ∧ Question.mc_answers exQ2 3 rng0 = some exL2 ∧
    exL2.list.length ≤ 3 ∧ exL2.list.length ≤ Question.max_candidates exQ2 :=
  ⟨by decide, by decide, by decide,
   (c3_amended.1 exQ2 3 rng0 exL2 (by decide) (by decide) (by decide)).1,
   (c3_amended.1 exQ2 3 rng0 exL2 (by decide) (by decide) (by decide)).2⟩

/-- C9: `mc_answers` returns absence exactly when the correct text is
unavailable (the answer-bearing side has no variants) or fewer than two
candidates can be assembled: for the flashcard variant, when the retry loop
collected zero decoys; for the mc-card variant, when the requested count or
the stored decoy bag leaves the capped count below two (`min count (d+1) < 2`
iff `count < 2` or `d = 0`). -/
theorem c9_absence :
    (∀ (s : Set) (ci : Nat) (side : Side) (count : Nat) (r : Rng),
       Question.mc_answers ⟨s, .flashcard ci side⟩ count r = none ↔
         ((s.flashcards.getD ci Flashcard.blank).index side).text = [] ∨
         (findDecoys s ci side ((s.flashcards.getD ci Flashcard.blank).index side)
             (s.flashcard_recall_settings side)
             (usizeSub1 (min count s.flashcards.length)) FIND_DECOY_ATTEMPTS []
             (((s.flashcards.getD ci Flashcard.blank).index side).any_text r).2).1 = []) ∧
    (∀ (s : Set) (ci : Nat) (count : Nat) (r : Rng),
       Question.mc_answers ⟨s, .mcCard ci⟩ count r = none ↔
         (s.mc_cards.getD ci McCard.blank).answer.text = [] ∨ count < 2 ∨
         (s.mc_cards.getD ci McCard.blank).decoys.text_count = 0) := by
  constructor
  · intro s ci side count r
    rcases hta : ((s.flashcards.getD ci Flashcard.blank).index side).any_text r with ⟨tc, r1⟩
    cases tc with
    | none =>
      have htext : ((s.flashcards.getD ci Flashcard.blank).index side).text = [] :=
        (any_text_fst_none_iff _ r).mp (by rw [hta])
      refine iff_of_true ?_ (Or.inl htext)
      simp only [Question.mc_answers]
      rw [hta]
    | some ct =>
      have htext_ne : ((s.flashcards.getD ci Flashcard.blank).index side).text ≠ [] := by
        intro h
        have hn := (any_text_fst_none_iff _ r).mpr h
        rw [hta] at hn
        simp at hn
      simp only [Question.mc_answers]
      rw [hta, or_iff_right htext_ne]
      split
      · next r2 hemp => exact absurd hemp (by simp)
      · next text r2 hemp =>
        rw [Prod.mk.injEq] at hemp
        obtain ⟨hct, hr⟩ := hemp
        cases Option.some.inj hct
        cases hr
        split
        · next hemp2 =>
          refine iff_of_true rfl ?_
          rwa [List.isEmpty_iff] at hemp2
        · next hemp2 =>
          refine iff_of_false (by simp) ?_
          rw [Bool.not_eq_true] at hemp2
          intro h
          rw [h] at hemp2
          simp at hemp2
  · intro s ci count r
    rcases hta : (s.mc_cards.getD ci McCard.blank).answer.any_text r with ⟨tc, r1⟩
    cases tc with
    | none =>
      have htext : (s.mc_cards.getD ci McCard.blank).answer.text = [] :=
        (any_text_fst_none_iff _ r).mp (by rw [hta])
      refine iff_of_true ?_ (Or.inl htext)
      simp only [Question.mc_answers]
      rw [hta]
    | some ct =>
      have htext_ne : (s.mc_cards.getD ci McCard.blank).answer.text ≠ [] := by
        intro h
        have hn := (any_text_fst_none_iff _ r).mpr h
        rw [hta] at hn
        simp at hn
      simp only [Question.mc_answers]
      rw [hta, or_iff_right htext_ne]
      split
      · next r2 hemp => exact absurd hemp (by simp)
      · next text r2 hemp =>
        rw [Prod.mk.injEq] at hemp
        obtain ⟨hct, hr⟩ := hemp
        cases Option.some.inj hct
        cases hr
        split
        · next hlt =>
          refine iff_of_true rfl ?_
          omega
        · next hge =>
          refine iff_of_false (by simp) ?_
          rw [Nat.not_lt] at hge
          omega

end EFC3
